import Mathlib

/-!
The gofail runtime: registry and bootstrap parsing.

A shallow embedding of `runtime/runtime.go`.  The package-level variables
`failpoints`, `envTerms` and the standard output stream become fields of an
explicit `State`; every function that reads or writes them takes the state and
returns the new one.  A `*Failpoint` is an address into a heap of failpoint
objects (or nil), so that two names sharing one object, and names mapped to
nil, are representable.  The functions are embedded as sequential code; for
concurrent callers the code between a `Lock` and the matching `Unlock` of the
mutex `failpointsMu` is one indivisible step (`Critical`), and an execution
is an interleaving of the callers' steps.  Go strings are Lean strings; the
separators `;` and `=` are single bytes that never occur inside a longer
UTF-8 sequence, so splitting by character is Go's splitting by byte.
-/

namespace Gofail

/-- A Go `map[string]V`.  Go leaves the iteration order unspecified; the
association list fixes one order, and keys are unique by construction. -/
abbrev GoMap (V : Type) : Type := AList (fun _ : String => V)

/-- Go's `m[k]` for a map of pointers: the stored value, or nil (`none`) when
the key is absent. -/
def GoMap.index {V : Type} (m : GoMap (Option V)) (k : String) : Option V :=
  match m.lookup k with
  | some v => v
  | none => none

/-- Modelled from the spec: the type `terms` is declared outside src/.  The
source reads only its field `desc`; by the spec a parsed term is an action
sequence (here of an arbitrary type `α`) together with the original term
text. -/
structure Terms (α : Type) where
  /-- The parsed action sequence. -/
  chain : α
  /-- The term text the sequence was parsed from. -/
  desc : String

/-- Modelled from the spec: the type `Failpoint` is declared outside src/.
The source reads and writes only its field `t`, a `*terms` that is nil
(`none`) while the failpoint is disabled. -/
structure Failpoint (α : Type) where
  /-- The active terms, or nil. -/
  t : Option (Terms α)

/-- The error values the runtime returns. -/
inductive Error where
  /-- The package variable `ErrNoExist`. -/
  | ErrNoExist : Error
  /-- The package variable `ErrDisabled`. -/
  | ErrDisabled : Error
  /-- An error returned by `newTerms`, with its message. -/
  | badTerm (msg : String) : Error
  /-- The error `fmt.Errorf("bad failpoint %q", fp)` of `parseFailpoints`. -/
  | badFailpoint (fp : String) : Error
  deriving DecidableEq, Repr

/-- One call of `fmt.Printf` or `fmt.Println`, recorded with its arguments. -/
inductive Output where
  /-- `fmt.Printf("failed to enable \"%s=%s\" (%v)\n", failpath, inTerms, err)`. -/
  | failedToEnable (failpath inTerms : String) (err : Error) : Output
  /-- `fmt.Printf("fail to parse failpoint: %v\n", err)`. -/
  | failToParse (err : Error) : Output
  /-- `fmt.Println(err)`. -/
  | println (err : Error) : Output
  deriving DecidableEq, Repr

/-- The package state: the registry `failpoints` with the heap of failpoint
objects its pointers refer to, the bootstrap map `envTerms`, and what has been
written to standard output. -/
structure State (α : Type) where
  /-- The variable `failpoints map[string]*Failpoint`; `none` is a nil pointer. -/
  failpoints : GoMap (Option Nat)
  /-- The failpoint object at each address. -/
  heap : Nat → Failpoint α
  /-- The variable `envTerms map[string]string`. -/
  envTerms : GoMap String
  /-- The lines printed so far, oldest first. -/
  stdout : List Output

/-- The function `enable`: nil lookup gives `ErrNoExist`; a term that
`newTerms` rejects is logged and its error returned; otherwise the new terms
are stored in the failpoint object. -/
def enable {α : Type} (newTerms : String → String → Except String (Terms α))
    (s : State α) (failpath inTerms : String) : State α × Option Error :=
  match s.failpoints.index failpath with
  | none => (s, some Error.ErrNoExist)
  | some fp =>
    match newTerms failpath inTerms with
    | Except.error err =>
      ({ s with stdout := s.stdout ++
          [Output.failedToEnable failpath inTerms (Error.badTerm err)] },
        some (Error.badTerm err))
    | Except.ok t =>
      ({ s with heap := Function.update s.heap fp { s.heap fp with t := some t } }, none)

/-- The exported `Enable`: `enable` under the registry lock. -/
def Enable {α : Type} (newTerms : String → String → Except String (Terms α))
    (s : State α) (failpath inTerms : String) : State α × Option Error :=
  enable newTerms s failpath inTerms

/-- The function `disable`: nil lookup gives `ErrNoExist`, a nil `t` gives
`ErrDisabled`, otherwise `t` is set to nil. -/
def disable {α : Type} (s : State α) (failpath : String) : State α × Option Error :=
  match s.failpoints.index failpath with
  | none => (s, some Error.ErrNoExist)
  | some fp =>
    match (s.heap fp).t with
    | none => (s, some Error.ErrDisabled)
    | some _ =>
      ({ s with heap := Function.update s.heap fp { s.heap fp with t := none } }, none)

/-- The exported `Disable`: `disable` under the registry lock. -/
def Disable {α : Type} (s : State α) (failpath : String) : State α × Option Error :=
  disable s failpath

/-- The function `status`: the description of the active terms, or the empty
string with `ErrNoExist` or `ErrDisabled`.  It writes nothing. -/
def status {α : Type} (s : State α) (failpath : String) : String × Option Error :=
  match s.failpoints.index failpath with
  | none => ("", some Error.ErrNoExist)
  | some fp =>
    match (s.heap fp).t with
    | none => ("", some Error.ErrDisabled)
    | some t => (t.desc, none)

/-- The exported `Status`: `status` under the registry lock. -/
def Status {α : Type} (s : State α) (failpath : String) : String × Option Error :=
  status s failpath

/-- Go's `strings.Split(s, sep)` for a one-character separator: the pieces of
`s` between consecutive occurrences of `sep`, so one piece more than there are
separators, and the single piece `""` for the empty string. -/
def Split (s : String) (sep : Char) : List String :=
  (s.toList.splitOn sep).map String.mk

/-- The `for ... range strings.Split(fps, ";")` loop of `parseFailpoints`, run
over the remaining entries with the map built so far.  The result is Go's pair
`(map, error)`, with `none` for a nil map and for a nil error. -/
def parseFailpointsLoop (fpMap : GoMap String) :
    List String → Option (GoMap String) × Option Error
  | [] => (some fpMap, none)
  | fp :: rest =>
    if fp.length = 0 then parseFailpointsLoop fpMap rest
    else
      match Split fp '=' with
      | [name, term] => parseFailpointsLoop (fpMap.insert name term) rest
      | _ => (none, some (Error.badFailpoint fp))

/-- The function `parseFailpoints`: split on `;`, skip empty entries, split
each entry on `=` and store it when that gives exactly two parts; the first
entry that does not ends the loop with `(nil, err)`. -/
def parseFailpoints (fps : String) : Option (GoMap String) × Option Error :=
  parseFailpointsLoop ∅ (Split fps ';')

/-- The function `list`: append every key met while ranging over the registry
to an initially empty slice. -/
def list {α : Type} (s : State α) : List String :=
  s.failpoints.keys.foldl (fun ret fp => ret ++ [fp]) []

/-- The exported `List` (renamed, the source's name being that of Lean's list
type): `list` under the registry lock. -/
def ListNames {α : Type} (s : State α) : List String :=
  list s

/-- The function `register`: store the pointer under the name, then, when
`envTerms` has an entry for the name, call `Enable` with it and drop the
error it returns. -/
def register {α : Type} (newTerms : String → String → Except String (Terms α))
    (s : State α) (failpath : String) (fp : Option Nat) : State α :=
  let s1 : State α := { s with failpoints := s.failpoints.insert failpath fp }
  match s1.envTerms.lookup failpath with
  | some t => (Enable newTerms s1 failpath t).1
  | none => s1

/-- How package initialisation ends: the process goes on with a state, or
`os.Exit` has stopped it with an exit code after some output. -/
inductive Outcome (α : Type) where
  /-- Initialisation returned. -/
  | running (s : State α) : Outcome α
  /-- The call `os.Exit(code)` was reached. -/
  | exited (code : Nat) (stdout : List Output) : Outcome α

/-- The function `init`.  `getenv` stands for `os.Getenv`; `serve` (defined
outside src/) is a parameter giving the error it returns, if any; `heap` is
the initial heap. -/
def init {α : Type} (heap : Nat → Failpoint α) (getenv : String → String)
    (serve : String → Option Error) : Outcome α :=
  let s0 : State α := { failpoints := ∅, heap := heap, envTerms := ∅, stdout := [] }
  let afterEnv : Outcome α :=
    if (getenv "GOFAIL_FAILPOINTS").length > 0 then
      match parseFailpoints (getenv "GOFAIL_FAILPOINTS") with
      | (_, some err) => Outcome.exited 1 [Output.failToParse err]
      | (fpMap, none) => Outcome.running { s0 with envTerms := fpMap.getD ∅ }
    else Outcome.running s0
  match afterEnv with
  | Outcome.exited code out => Outcome.exited code out
  | Outcome.running s1 =>
    if (getenv "GOFAIL_HTTP").length > 0 then
      match serve (getenv "GOFAIL_HTTP") with
      | some err => Outcome.exited 1 (s1.stdout ++ [Output.println err])
      | none => Outcome.running s1
    else Outcome.running s1

/-- Modelled from the spec: `newTerms` is defined outside src/.  By the spec
the term parser is a pure function from term text to an action sequence or an
error, and a failpoint caches the original term text next to the sequence; the
grammar is left open, so the parser is a parameter. -/
def newTerms {α : Type} (parse : String → Except String α)
    (_failpath desc : String) : Except String (Terms α) :=
  match parse desc with
  | Except.error err => Except.error err
  | Except.ok chain => Except.ok { chain := chain, desc := desc }

/-- A term parser for concrete instances: it accepts exactly the terms `off`
and `return(1)` and reports any other text as a parse error. -/
def sampleParse (desc : String) : Except String Unit :=
  if desc = "off" ∨ desc = "return(1)" then Except.ok () else Except.error "bad parse"

/-- A state for concrete instances: `A` and `B` are registered at addresses 0
and 1, `N` is mapped to nil, and only `B` is active, with term `off`. -/
def sampleState : State Unit where
  failpoints := ((∅ : GoMap (Option Nat)).insert "A" (some 0)).insert "B" (some 1)
    |>.insert "N" none
  heap := fun a => if a = 1 then { t := some { chain := (), desc := "off" } } else { t := none }
  envTerms := (∅ : GoMap String).insert "A" "return(1)" |>.insert "C" "99%%bogus"
  stdout := []

/-- A heap for concrete instances in which every failpoint object is
disabled. -/
def sampleHeap : Nat → Failpoint Unit :=
  fun _ => { t := none }

/-- An environment for concrete instances: `GOFAIL_FAILPOINTS` is
`C=99%%bogus` and every other variable is unset. -/
def sampleEnv (key : String) : String :=
  if key = "GOFAIL_FAILPOINTS" then "C=99%%bogus" else ""

/-- The state `init` produces from `sampleHeap` and `sampleEnv`: an empty
registry and the one pending term. -/
def bootState : State Unit where
  failpoints := ∅
  heap := sampleHeap
  envTerms := (∅ : GoMap String).insert "C" "99%%bogus"
  stdout := []

/-- One call into the package: `register` with a pointer, or one of the four
exported operations. -/
inductive Call where
  /-- The call `register(failpath, fp)`. -/
  | register (failpath : String) (fp : Option Nat) : Call
  /-- The call `Enable(failpath, inTerms)`. -/
  | enable (failpath inTerms : String) : Call
  /-- The call `Disable(failpath)`. -/
  | disable (failpath : String) : Call
  /-- The call `Status(failpath)`. -/
  | status (failpath : String) : Call
  /-- The call `List()`. -/
  | list : Call
  deriving DecidableEq, Repr

/-- The state a call leaves behind.  `Status` and `List` only read, so they
leave the state they were given. -/
def Call.apply {α : Type} (newTerms : String → String → Except String (Terms α))
    (s : State α) : Call → State α
  | Call.register failpath fp => Gofail.register newTerms s failpath fp
  | Call.enable failpath inTerms => (Enable newTerms s failpath inTerms).1
  | Call.disable failpath => (Disable s failpath).1
  | Call.status _ => s
  | Call.list => s

/-- The state after a sequence of calls made one after the other. -/
def runCalls {α : Type} (newTerms : String → String → Except String (Terms α))
    (s : State α) (calls : List Call) : State α :=
  calls.foldl (Call.apply newTerms) s

/-- Whether a call is `register` with a nil pointer. -/
def Call.registersNil : Call → Bool
  | Call.register _ none => true
  | _ => false

/-- C1 (round trip): for a name whose registry entry is a failpoint object and
a term text the parser accepts, `Enable` returns no error and `Status` on the
resulting state returns that very text with no error. -/
theorem enable_status_roundtrip {α : Type} (parse : String → Except String α)
    (s : State α) (name T : String) (fp : Nat) (chain : α)
    (hreg : s.failpoints.index name = some fp) (hacc : parse T = Except.ok chain) :
    (Enable (newTerms parse) s name T).2 = none ∧
      Status (Enable (newTerms parse) s name T).1 name = (T, none) := by
  simp [Enable, enable, Status, status, newTerms, hreg, hacc]

/-- Instance of C1: enabling `A` with `return(1)` in the sample state. -/
theorem enable_status_roundtrip_witness :
    sampleState.failpoints.index "A" = some 0 ∧ sampleParse "return(1)" = Except.ok () ∧
      (Enable (newTerms sampleParse) sampleState "A" "return(1)").2 = none ∧
      Status (Enable (newTerms sampleParse) sampleState "A" "return(1)").1 "A"
        = ("return(1)", none) :=
  ⟨by decide, by rfl,
    enable_status_roundtrip sampleParse sampleState "A" "return(1)" 0 () (by decide) (by rfl)⟩

/-- C2 (a failed Enable changes nothing in the registry): for a registered
name and a term text that `newTerms` rejects with error `err`, `Enable`
returns that error, the map `failpoints`, every failpoint object and
`envTerms` are as before, and so `Status` of every name is as before. -/
theorem enable_rejected_unchanged {α : Type}
    (newTerms : String → String → Except String (Terms α)) (s : State α)
    (name term : String) (fp : Nat) (err : String)
    (hreg : s.failpoints.index name = some fp)
    (hrej : newTerms name term = Except.error err) :
    (Enable newTerms s name term).2 = some (Error.badTerm err) ∧
      (Enable newTerms s name term).1.failpoints = s.failpoints ∧
      (Enable newTerms s name term).1.heap = s.heap ∧
      (Enable newTerms s name term).1.envTerms = s.envTerms ∧
      ∀ m, Status (Enable newTerms s name term).1 m = Status s m := by
  simp [Enable, enable, Status, status, hreg, hrej]

/-- Instance of C2: the malformed term `99%%bogus` on the active failpoint `B`
of the sample state. -/
theorem enable_rejected_unchanged_witness :
    sampleState.failpoints.index "B" = some 1 ∧
      newTerms sampleParse "B" "99%%bogus" = Except.error "bad parse" ∧
      (Enable (newTerms sampleParse) sampleState "B" "99%%bogus").2
        = some (Error.badTerm "bad parse") ∧
      (Enable (newTerms sampleParse) sampleState "B" "99%%bogus").1.failpoints
        = sampleState.failpoints ∧
      (Enable (newTerms sampleParse) sampleState "B" "99%%bogus").1.heap = sampleState.heap ∧
      (Enable (newTerms sampleParse) sampleState "B" "99%%bogus").1.envTerms
        = sampleState.envTerms ∧
      ∀ m, Status (Enable (newTerms sampleParse) sampleState "B" "99%%bogus").1 m
        = Status sampleState m :=
  ⟨by decide, by rfl,
    enable_rejected_unchanged (newTerms sampleParse) sampleState "B" "99%%bogus" 1 "bad parse"
      (by decide) (by rfl)⟩

/-- C3 (unregistered names): when `failpoints[name]` is nil, which is the case
for every name that is not a key of the registry, `Enable` with any term text,
`Disable` and `Status` all return `ErrNoExist`, `Status` returns the empty
description, and the state is unchanged; `Enable` does not consult `newTerms`,
so the answer is the same for well-formed and malformed terms. -/
theorem unregistered_not_found {α : Type}
    (newTerms : String → String → Except String (Terms α)) (s : State α)
    (name term : String) (hun : s.failpoints.index name = none) :
    Enable newTerms s name term = (s, some Error.ErrNoExist) ∧
      Disable s name = (s, some Error.ErrNoExist) ∧
      Status s name = ("", some Error.ErrNoExist) := by
  simp [Enable, enable, Disable, disable, Status, status, hun]

/-- Instance of C3: the name `Z`, absent from the sample state, with a
malformed term. -/
theorem unregistered_not_found_witness :
    sampleState.failpoints.index "Z" = none ∧
      Enable (newTerms sampleParse) sampleState "Z" "99%%bogus"
        = (sampleState, some Error.ErrNoExist) ∧
      Disable sampleState "Z" = (sampleState, some Error.ErrNoExist) ∧
      Status sampleState "Z" = ("", some Error.ErrNoExist) :=
  ⟨by decide,
    unregistered_not_found (newTerms sampleParse) sampleState "Z" "99%%bogus" (by decide)⟩

/-- C4 (Disable right after Enable): for a registered name and a term text
that `newTerms` accepts, `Disable` on the state left by `Enable` returns no
error and `Status` afterwards returns `ErrDisabled`, whatever the failpoint
held before. -/
theorem enable_disable_status {α : Type}
    (newTerms : String → String → Except String (Terms α)) (s : State α)
    (name term : String) (fp : Nat) (t : Terms α)
    (hreg : s.failpoints.index name = some fp)
    (hacc : newTerms name term = Except.ok t) :
    (Disable (Enable newTerms s name term).1 name).2 = none ∧
      Status (Disable (Enable newTerms s name term).1 name).1 name
        = ("", some Error.ErrDisabled) := by
  simp [Enable, enable, Disable, disable, Status, status, hreg, hacc]

/-- Instance of C4: `A` of the sample state, enabled with `off` and
disabled. -/
theorem enable_disable_status_witness :
    sampleState.failpoints.index "A" = some 0 ∧
      newTerms sampleParse "A" "off" = Except.ok { chain := (), desc := "off" } ∧
      (Disable (Enable (newTerms sampleParse) sampleState "A" "off").1 "A").2 = none ∧
      Status (Disable (Enable (newTerms sampleParse) sampleState "A" "off").1 "A").1 "A"
        = ("", some Error.ErrDisabled) :=
  ⟨by decide, by rfl,
    enable_disable_status (newTerms sampleParse) sampleState "A" "off" 0
      { chain := (), desc := "off" } (by decide) (by rfl)⟩

/-- C5 (the results of Disable): `Disable` returns no error exactly when the
name is registered and its failpoint has active terms; it returns
`ErrDisabled` exactly when the name is registered and its failpoint has none,
and then the state is unchanged; after a `Disable` without error a second
`Disable` returns `ErrDisabled`. -/
theorem disable_results {α : Type} (s : State α) (name : String) :
    ((Disable s name).2 = none ↔
        ∃ fp, s.failpoints.index name = some fp ∧ (s.heap fp).t ≠ none) ∧
      ((Disable s name).2 = some Error.ErrDisabled ↔
        ∃ fp, s.failpoints.index name = some fp ∧ (s.heap fp).t = none) ∧
      ((Disable s name).2 = some Error.ErrDisabled → (Disable s name).1 = s) ∧
      ((Disable s name).2 = none →
        (Disable (Disable s name).1 name).2 = some Error.ErrDisabled) := by
  unfold Disable disable
  cases hidx : s.failpoints.index name with
  | none => simp
  | some fp =>
    cases ht : (s.heap fp).t with
    | none => simp [hidx, ht]
    | some t => simp [hidx, ht]


/-! Splitting and joining -/

theorem flatten_intersperse_cons {β : Type} (sep x : List β) (xs : List (List β)) :
    ((x :: xs).intersperse sep).flatten = x ++ (xs.map (fun a => sep ++ a)).flatten := by
  induction xs generalizing x with
  | nil => simp
  | cons y ys ih => simp [List.intersperse, ih]

theorem intercalate_go_data (acc sep : String) (l : List String) :
    (String.intercalate.go acc sep l).data
      = acc.data ++ (l.map (fun a => sep.data ++ a.data)).flatten := by
  induction l generalizing acc with
  | nil => simp [String.intercalate.go]
  | cons a as ih => simp [String.intercalate.go, ih, List.append_assoc]

theorem intercalate_data (sep : String) (l : List String) :
    (String.intercalate sep l).data = List.intercalate sep.data (l.map String.data) := by
  cases l with
  | nil => simp [String.intercalate, List.intercalate]
  | cons a as =>
    simp only [String.intercalate, intercalate_go_data, List.intercalate, List.map_cons,
      flatten_intersperse_cons, List.map_map]
    rfl

theorem map_mk_map_data (l : List String) : (l.map String.data).map String.mk = l := by
  induction l with
  | nil => rfl
  | cons a as ih => simpa using ih

theorem Split_intercalate (sep : Char) (l : List String) (hne : l ≠ [])
    (hsep : ∀ e ∈ l, sep ∉ e.toList) :
    Split (String.intercalate (String.singleton sep) l) sep = l := by
  have hd : (String.singleton sep).data = [sep] := rfl
  unfold Split
  rw [String.toList, intercalate_data, hd, List.splitOn_intercalate, map_mk_map_data]
  · intro x hx
    obtain ⟨e, he, rfl⟩ := List.mem_map.1 hx
    exact hsep e he
  · simpa using hne

theorem Split_entry (sep : Char) (name term : String)
    (hn : sep ∉ name.toList) (ht : sep ∉ term.toList) :
    Split (name ++ String.singleton sep ++ term) sep = [name, term] := by
  have h := Split_intercalate sep [name, term] (by simp) (by simpa using And.intro hn ht)
  simpa [String.intercalate, String.intercalate.go] using h


theorem length_splitOn (sep : Char) (l : List Char) :
    (l.splitOn sep).length = l.count sep + 1 := by
  induction l with
  | nil => simp
  | cons c cs ih =>
    simp only [List.splitOn] at ih ⊢
    rw [List.splitOnP_cons]
    by_cases h : c = sep
    · subst h
      simp [ih]
    · have h2 : (c == sep) = false := by simpa using h
      simp [h2, ih, List.count_cons, h]

theorem length_Split (sep : Char) (fp : String) :
    (Split fp sep).length = fp.toList.count sep + 1 := by
  simp [Split, length_splitOn]

/-! The loop of `parseFailpoints` -/

theorem parseFailpointsLoop_error_iff (fpMap : GoMap String) (l : List String) :
    (parseFailpointsLoop fpMap l).2 ≠ none ↔
      ∃ fp ∈ l, fp ≠ "" ∧ (Split fp '=').length ≠ 2 := by
  induction l generalizing fpMap with
  | nil => simp [parseFailpointsLoop]
  | cons fp rest ih =>
    unfold parseFailpointsLoop
    by_cases hlen : fp.length = 0
    · have hfp : fp = "" := by
        have hdata : fp.data.length = 0 := hlen
        exact String.ext (List.length_eq_zero.1 hdata)
      rw [if_pos hlen, ih]
      constructor
      · rintro ⟨e, he, hne, h2⟩
        exact ⟨e, List.mem_cons_of_mem _ he, hne, h2⟩
      · rintro ⟨e, he, hne, h2⟩
        rcases List.mem_cons.1 he with rfl | he
        · exact absurd hfp hne
        · exact ⟨e, he, hne, h2⟩
    · have hfp : fp ≠ "" := by
        rintro rfl
        exact hlen rfl
      rw [if_neg hlen]
      rcases hsp : Split fp '=' with _ | ⟨a, _ | ⟨b, _ | ⟨c, r⟩⟩⟩
      · simp [hsp, hfp]
      · simp [hsp, hfp]
      · simp [hsp, hfp, ih]
      · simp [hsp, hfp]

theorem parseFailpointsLoop_map_or_error (fpMap : GoMap String) (l : List String) :
    ((parseFailpointsLoop fpMap l).2 ≠ none → (parseFailpointsLoop fpMap l).1 = none) ∧
      ((parseFailpointsLoop fpMap l).2 = none →
        ∃ m, (parseFailpointsLoop fpMap l).1 = some m) := by
  induction l generalizing fpMap with
  | nil => simp [parseFailpointsLoop]
  | cons fp rest ih =>
    unfold parseFailpointsLoop
    by_cases hlen : fp.length = 0
    · rw [if_pos hlen]
      exact ih fpMap
    · rw [if_neg hlen]
      rcases hsp : Split fp '=' with _ | ⟨a, _ | ⟨b, _ | ⟨c, r⟩⟩⟩
      · simp
      · simp
      · exact ih _
      · simp

theorem parseFailpointsLoop_entries (fpMap : GoMap String) (pairs : List (String × String))
    (h : ∀ p ∈ pairs, '=' ∉ p.1.toList ∧ '=' ∉ p.2.toList) :
    parseFailpointsLoop fpMap (pairs.map (fun p => p.1 ++ "=" ++ p.2))
      = (some (pairs.foldl (fun acc p => acc.insert p.1 p.2) fpMap), none) := by
  induction pairs generalizing fpMap with
  | nil => simp [parseFailpointsLoop]
  | cons p ps ih =>
    have hp := h p (List.mem_cons_self _ _)
    have hsp : Split (p.1 ++ "=" ++ p.2) '=' = [p.1, p.2] := Split_entry '=' p.1 p.2 hp.1 hp.2
    have hlen : (p.1 ++ "=" ++ p.2).length ≠ 0 := by
      have h1 : "=".length = 1 := rfl
      simp [String.length_append, h1]
    simp only [List.map_cons, List.foldl_cons]
    unfold parseFailpointsLoop
    rw [if_neg hlen, hsp]
    exact ih _ (fun q hq => h q (List.mem_cons_of_mem _ hq))

theorem lookup_foldl_insert (k : String) (fpMap : GoMap String)
    (pairs : List (String × String)) :
    (pairs.foldl (fun acc p => acc.insert p.1 p.2) fpMap).lookup k
      = match ((pairs.filter (fun p => p.1 = k)).map Prod.snd).getLast? with
        | some v => some v
        | none => fpMap.lookup k := by
  induction pairs generalizing fpMap with
  | nil => simp
  | cons p ps ih =>
    simp only [List.foldl_cons]
    rw [ih]
    by_cases hk : p.1 = k
    · subst hk
      cases hl : (List.map Prod.snd (List.filter (fun q => decide (q.1 = p.1)) ps)).getLast? with
      | none =>
        have hnil : List.map Prod.snd (List.filter (fun q => decide (q.1 = p.1)) ps) = [] := by
          simpa using hl
        simp [List.filter_cons, hnil]
      | some v =>
        simp [List.filter_cons, List.getLast?_cons, hl]
    · have hk2 : k ≠ p.1 := fun h => hk h.symm
      simp [List.filter_cons, hk, AList.lookup_insert_ne hk2]


/-- C6 (well-formed bootstrap string): for a non-empty list of (name, term)
pairs in which no name and no term contains `;` or `=`, `parseFailpoints` on
the entries `name=term` joined with `;` returns a map and no error, and the
map sends every name to the term of its last pair and has no key that is not
the name of a pair. -/
theorem parseFailpoints_wellformed (pairs : List (String × String)) (hne : pairs ≠ [])
    (hchars : ∀ p ∈ pairs, ';' ∉ p.1.toList ∧ '=' ∉ p.1.toList ∧
      ';' ∉ p.2.toList ∧ '=' ∉ p.2.toList) :
    ∃ m, parseFailpoints (String.intercalate ";" (pairs.map (fun p => p.1 ++ "=" ++ p.2)))
        = (some m, none) ∧
      ∀ k, m.lookup k = ((pairs.filter (fun p => p.1 = k)).map Prod.snd).getLast? := by
  have hsplit : Split (String.intercalate ";" (pairs.map (fun p => p.1 ++ "=" ++ p.2))) ';'
      = pairs.map (fun p => p.1 ++ "=" ++ p.2) := by
    apply Split_intercalate ';'
    · simpa using hne
    · intro e he
      obtain ⟨p, hp, rfl⟩ := List.mem_map.1 he
      obtain ⟨h1, _, h3, _⟩ := hchars p hp
      have h2 : ';' ∉ "=".toList := by decide
      simp only [String.toList, String.data_append, List.mem_append, not_or]
      exact ⟨⟨h1, h2⟩, h3⟩
  refine ⟨pairs.foldl (fun acc p => acc.insert p.1 p.2) ∅, ?_, ?_⟩
  · unfold parseFailpoints
    rw [hsplit]
    exact parseFailpointsLoop_entries ∅ pairs (fun p hp => ⟨(hchars p hp).2.1, (hchars p hp).2.2.2⟩)
  · intro k
    rw [lookup_foldl_insert]
    cases ((pairs.filter (fun p => p.1 = k)).map Prod.snd).getLast? with
    | none => simp
    | some v => rfl

/-- Instance of C6: the pairs of the bootstrap string `A=return(1);B=off`,
and the map that string parses to. -/
theorem parseFailpoints_wellformed_witness :
    ([("A", "return(1)"), ("B", "off")] : List (String × String)) ≠ [] ∧
      (∀ p ∈ ([("A", "return(1)"), ("B", "off")] : List (String × String)),
        ';' ∉ p.1.toList ∧ '=' ∉ p.1.toList ∧ ';' ∉ p.2.toList ∧ '=' ∉ p.2.toList) ∧
      (∃ m, parseFailpoints (String.intercalate ";"
          (([("A", "return(1)"), ("B", "off")] : List (String × String)).map
            (fun p => p.1 ++ "=" ++ p.2))) = (some m, none) ∧
        ∀ k, m.lookup k = ((([("A", "return(1)"), ("B", "off")] :
          List (String × String)).filter (fun p => p.1 = k)).map Prod.snd).getLast?) ∧
      parseFailpoints "A=return(1);B=off"
        = (some (((∅ : GoMap String).insert "A" "return(1)").insert "B" "off"), none) :=
  ⟨by decide, by decide,
    parseFailpoints_wellformed [("A", "return(1)"), ("B", "off")] (by decide) (by decide),
    by rfl⟩

/-- C7 (malformed bootstrap string): `parseFailpoints` returns an error
exactly when some non-empty `;`-separated entry does not split on `=` into
exactly two parts; an entry splits into one part more than it has `=`
characters; with an error the returned map is nil, and without an error a map
is returned. -/
theorem parseFailpoints_error_iff (fps : String) :
    ((parseFailpoints fps).2 ≠ none ↔
        ∃ fp ∈ Split fps ';', fp ≠ "" ∧ (Split fp '=').length ≠ 2) ∧
      (∀ fp : String, (Split fp '=').length = fp.toList.count '=' + 1) ∧
      ((parseFailpoints fps).2 ≠ none → (parseFailpoints fps).1 = none) ∧
      ((parseFailpoints fps).2 = none → ∃ m, (parseFailpoints fps).1 = some m) :=
  ⟨parseFailpointsLoop_error_iff ∅ _, length_Split '=',
    (parseFailpointsLoop_map_or_error ∅ _).1, (parseFailpointsLoop_map_or_error ∅ _).2⟩


/-! Registration and listing -/

theorem index_insert_self {V : Type} (m : GoMap (Option V)) (k : String) (v : Option V) :
    GoMap.index (m.insert k v) k = v := by
  unfold GoMap.index
  rw [AList.lookup_insert]

theorem foldl_append_singleton {β : Type} (l acc : List β) :
    l.foldl (fun ret x => ret ++ [x]) acc = acc ++ l := by
  induction l generalizing acc with
  | nil => simp
  | cons x xs ih => simp [ih]

theorem list_eq_keys {α : Type} (s : State α) : list s = s.failpoints.keys := by
  simp [list, foldl_append_singleton]

theorem enable_failpoints {α : Type} (newTerms : String → String → Except String (Terms α))
    (s : State α) (name term : String) :
    (enable newTerms s name term).1.failpoints = s.failpoints := by
  unfold enable
  cases s.failpoints.index name with
  | none => rfl
  | some fp =>
    cases newTerms name term with
    | error err => rfl
    | ok t => rfl

theorem disable_failpoints {α : Type} (s : State α) (name : String) :
    (disable s name).1.failpoints = s.failpoints := by
  unfold disable
  cases s.failpoints.index name with
  | none => rfl
  | some fp =>
    cases ht : (s.heap fp).t with
    | none => simp [ht]
    | some t => simp [ht]

/-- C8 (register applies a pending bootstrap term): in any state, when
`envTerms` has an entry `t` for the name and the parser accepts `t`, after
`register` with a failpoint object the object holds terms parsed from `t` and
`Status` returns `t` with no error; when `envTerms` has no entry for the name,
`register` only stores the pointer, so every failpoint object, and with it the
active term of the one registered, is as before. -/
theorem register_applies_pending {α : Type} (parse : String → Except String α)
    (s : State α) (name : String) :
    (∀ (fp : Nat) (t : String) (chain : α), s.envTerms.lookup name = some t →
        parse t = Except.ok chain →
        ((register (newTerms parse) s name (some fp)).heap fp).t
            = some { chain := chain, desc := t } ∧
          Status (register (newTerms parse) s name (some fp)) name = (t, none)) ∧
      (∀ fp : Option Nat, s.envTerms.lookup name = none →
        register (newTerms parse) s name fp
          = { s with failpoints := s.failpoints.insert name fp }) := by
  constructor
  · intro fp t chain hpend hacc
    simp [register, hpend, Enable, enable, index_insert_self, newTerms, hacc, Status, status]
  · intro fp hnone
    simp [register, hnone]

/-- Instance of C8: in the sample state `A` has the pending term `return(1)`
and `B` has none. -/
theorem register_applies_pending_witness :
    sampleState.envTerms.lookup "A" = some "return(1)" ∧
      sampleParse "return(1)" = Except.ok () ∧
      ((register (newTerms sampleParse) sampleState "A" (some 7)).heap 7).t
        = some { chain := (), desc := "return(1)" } ∧
      Status (register (newTerms sampleParse) sampleState "A" (some 7)) "A"
        = ("return(1)", none) ∧
      sampleState.envTerms.lookup "B" = none ∧
      register (newTerms sampleParse) sampleState "B" (some 7)
        = { sampleState with failpoints := sampleState.failpoints.insert "B" (some 7) } :=
  ⟨by decide, by rfl,
    ((register_applies_pending sampleParse sampleState "A").1 7 "return(1)" ()
      (by decide) (by rfl)).1,
    ((register_applies_pending sampleParse sampleState "A").1 7 "return(1)" ()
      (by decide) (by rfl)).2,
    by decide,
    (register_applies_pending sampleParse sampleState "B").2 (some 7) (by decide)⟩

/-- Counterexample to C9: the bootstrap string `C=99%%bogus` passes `init`,
which leaves the process running; registering `C` afterwards, its pending
term being rejected by the parser, returns with `C` listed and disabled and
one line printed, and nothing stops the process. -/
theorem register_malformed_pending_counterexample :
    init sampleHeap sampleEnv (fun _ => none) = Outcome.running bootState ∧
      sampleParse "99%%bogus" = Except.error "bad parse" ∧
      list (register (newTerms sampleParse) bootState "C" (some 0)) = ["C"] ∧
      Status (register (newTerms sampleParse) bootState "C" (some 0)) "C"
        = ("", some Error.ErrDisabled) ∧
      (register (newTerms sampleParse) bootState "C" (some 0)).stdout
        = [Output.failedToEnable "C" "99%%bogus" (Error.badTerm "bad parse")] :=
  ⟨by rfl, by rfl, by decide, by decide, by decide⟩

/-- C9 as amended (a malformed pending term is logged, not fatal): when
`envTerms` has an entry for the name that `newTerms` rejects, `register` with
a failpoint object returns; the resulting state is the one before with the
name mapped to the object and one `failed to enable` line appended to the
output, so the object keeps the terms it carried. -/
theorem register_malformed_pending_logged {α : Type}
    (newTerms : String → String → Except String (Terms α)) (s : State α)
    (name t err : String) (fp : Nat)
    (hpend : s.envTerms.lookup name = some t)
    (hrej : newTerms name t = Except.error err) :
    register newTerms s name (some fp)
      = { s with failpoints := s.failpoints.insert name (some fp),
                 stdout := s.stdout ++ [Output.failedToEnable name t (Error.badTerm err)] } := by
  simp [register, hpend, Enable, enable, index_insert_self, hrej]

/-- Instance of amended C9: registering `C`, whose pending term in the sample
state is `99%%bogus`. -/
theorem register_malformed_pending_logged_witness :
    sampleState.envTerms.lookup "C" = some "99%%bogus" ∧
      newTerms sampleParse "C" "99%%bogus" = Except.error "bad parse" ∧
      register (newTerms sampleParse) sampleState "C" (some 2)
        = { sampleState with
            failpoints := sampleState.failpoints.insert "C" (some 2),
            stdout := sampleState.stdout ++
              [Output.failedToEnable "C" "99%%bogus" (Error.badTerm "bad parse")] } :=
  ⟨by decide, by rfl,
    register_malformed_pending_logged (newTerms sampleParse) sampleState "C" "99%%bogus"
      "bad parse" 2 (by decide) (by rfl)⟩

/-- C10 (List returns exactly the registered names): in every state the
result of `List` has no repetition, contains a name exactly when it is a key
of the registry, and is as long as the registry has keys; it depends on the
registry's keys only, and `Enable` and `Disable` leave it as it is. -/
theorem list_exactly_registered {α : Type}
    (newTerms : String → String → Except String (Terms α)) (s : State α) :
    (ListNames s).Nodup ∧
      (∀ name, name ∈ ListNames s ↔ name ∈ s.failpoints) ∧
      (∀ name, (ListNames s).count name = if name ∈ s.failpoints then 1 else 0) ∧
      (ListNames s).length = s.failpoints.entries.length ∧
      (∀ s2 : State α, s2.failpoints.keys = s.failpoints.keys → ListNames s2 = ListNames s) ∧
      (∀ name term, ListNames (Enable newTerms s name term).1 = ListNames s) ∧
      (∀ name, ListNames (Disable s name).1 = ListNames s) := by
  have hnodup : (ListNames s).Nodup := by
    simpa [ListNames, list_eq_keys] using s.failpoints.keys_nodup
  have hmem : ∀ name, name ∈ ListNames s ↔ name ∈ s.failpoints := by
    intro name
    simp [ListNames, list_eq_keys, AList.mem_keys]
  refine ⟨hnodup, hmem, ?_, ?_, ?_, ?_, ?_⟩
  · intro name
    by_cases h : name ∈ s.failpoints
    · rw [if_pos h]
      exact List.count_eq_one_of_mem hnodup ((hmem name).2 h)
    · rw [if_neg h]
      exact List.count_eq_zero_of_not_mem (fun hin => h ((hmem name).1 hin))
  · simp [ListNames, list_eq_keys, AList.keys, List.keys]
  · intro s2 h
    simp [ListNames, list_eq_keys, h]
  · intro name term
    simp [ListNames, list_eq_keys, Enable, enable_failpoints]
  · intro name
    simp [ListNames, list_eq_keys, Disable, disable_failpoints]


/-! Invariants of the registry -/

theorem register_failpoints {α : Type} (newTerms : String → String → Except String (Terms α))
    (s : State α) (name : String) (fp : Option Nat) :
    (register newTerms s name fp).failpoints = s.failpoints.insert name fp := by
  unfold register
  cases hpend : s.envTerms.lookup name with
  | none => simp [hpend]
  | some t => simp [hpend, Enable, enable_failpoints]

theorem apply_keeps_keys {α : Type} (newTerms : String → String → Except String (Terms α))
    (s : State α) (c : Call) (m : String) (hm : m ∈ s.failpoints) :
    m ∈ (c.apply newTerms s).failpoints := by
  cases c with
  | register failpath fp =>
    simp only [Call.apply, register_failpoints, AList.mem_insert]
    exact Or.inr hm
  | enable failpath inTerms => simpa [Call.apply, Enable, enable_failpoints] using hm
  | disable failpath => simpa [Call.apply, Disable, disable_failpoints] using hm
  | status failpath => exact hm
  | list => exact hm

theorem runCalls_keeps_keys {α : Type} (newTerms : String → String → Except String (Terms α))
    (calls : List Call) (s : State α) (m : String) (hm : m ∈ s.failpoints) :
    m ∈ (runCalls newTerms s calls).failpoints := by
  induction calls generalizing s with
  | nil => exact hm
  | cons c cs ih =>
    simp only [runCalls, List.foldl_cons]
    exact ih _ (apply_keeps_keys newTerms s c m hm)

/-- C11 (registry membership): `Enable` and `Disable` leave the map
`failpoints`, and so its key set, as it is on every path; `Status` and `List`
leave the whole state as it is; `register` replaces the map by itself with
the one name inserted, so a name is a key afterwards exactly when it is the
given name or was a key before, and every other name keeps its entry; and a
key of the registry is still a key after any sequence of calls. -/
theorem registry_membership_invariant {α : Type}
    (newTerms : String → String → Except String (Terms α)) (s : State α) :
    (∀ name term, (Enable newTerms s name term).1.failpoints = s.failpoints) ∧
      (∀ name, (Disable s name).1.failpoints = s.failpoints) ∧
      (∀ name, (Call.status name).apply newTerms s = s) ∧
      Call.list.apply newTerms s = s ∧
      (∀ name fp, (register newTerms s name fp).failpoints = s.failpoints.insert name fp) ∧
      (∀ name fp m, m ∈ (register newTerms s name fp).failpoints ↔
        m = name ∨ m ∈ s.failpoints) ∧
      (∀ name fp m, m ≠ name →
        (register newTerms s name fp).failpoints.lookup m = s.failpoints.lookup m) ∧
      (∀ calls m, m ∈ s.failpoints → m ∈ (runCalls newTerms s calls).failpoints) := by
  refine ⟨fun name term => enable_failpoints newTerms s name term,
    fun name => disable_failpoints s name, fun _ => rfl, rfl,
    fun name fp => register_failpoints newTerms s name fp, ?_, ?_,
    fun calls m hm => runCalls_keeps_keys newTerms calls s m hm⟩
  · intro name fp m
    rw [register_failpoints, AList.mem_insert]
  · intro name fp m hne
    rw [register_failpoints, AList.lookup_insert_ne hne]


theorem enable_twice {α : Type} (newTerms : String → String → Except String (Terms α))
    (s : State α) (name T1 T2 : String) (fp : Nat) (t1 t2 : Terms α)
    (hreg : s.failpoints.index name = some fp)
    (h1 : newTerms name T1 = Except.ok t1) (h2 : newTerms name T2 = Except.ok t2) :
    (enable newTerms (enable newTerms s name T1).1 name T2).1 = (enable newTerms s name T2).1 := by
  simp [enable, hreg, h1, h2]

/-- C12 (Enable replaces): for a registered name and two term texts the
parser accepts, `Enable` with the first and then with the second returns no
error either time and leaves exactly the state that `Enable` with the second
alone leaves, and `Status` then returns the second text. -/
theorem enable_replaces {α : Type} (parse : String → Except String α) (s : State α)
    (name T1 T2 : String) (fp : Nat) (c1 c2 : α)
    (hreg : s.failpoints.index name = some fp)
    (h1 : parse T1 = Except.ok c1) (h2 : parse T2 = Except.ok c2) :
    (Enable (newTerms parse) s name T1).2 = none ∧
      (Enable (newTerms parse) (Enable (newTerms parse) s name T1).1 name T2).2 = none ∧
      (Enable (newTerms parse) (Enable (newTerms parse) s name T1).1 name T2).1
        = (Enable (newTerms parse) s name T2).1 ∧
      Status (Enable (newTerms parse) (Enable (newTerms parse) s name T1).1 name T2).1 name
        = (T2, none) := by
  have hn1 : newTerms parse name T1 = Except.ok { chain := c1, desc := T1 } := by
    simp [newTerms, h1]
  have hn2 : newTerms parse name T2 = Except.ok { chain := c2, desc := T2 } := by
    simp [newTerms, h2]
  refine ⟨?_, ?_, enable_twice (newTerms parse) s name T1 T2 fp _ _ hreg hn1 hn2, ?_⟩
  · simp [Enable, enable, hreg, hn1]
  · simp [Enable, enable, hreg, hn1, hn2]
  · simp [Enable, enable, hreg, hn1, hn2, Status, status]

/-- Instance of C12: `B` of the sample state, enabled with `off` and then
with `return(1)`. -/
theorem enable_replaces_witness :
    sampleState.failpoints.index "B" = some 1 ∧ sampleParse "off" = Except.ok () ∧
      sampleParse "return(1)" = Except.ok () ∧
      (Enable (newTerms sampleParse) sampleState "B" "off").2 = none ∧
      (Enable (newTerms sampleParse)
        (Enable (newTerms sampleParse) sampleState "B" "off").1 "B" "return(1)").2 = none ∧
      (Enable (newTerms sampleParse)
        (Enable (newTerms sampleParse) sampleState "B" "off").1 "B" "return(1)").1
        = (Enable (newTerms sampleParse) sampleState "B" "return(1)").1 ∧
      Status (Enable (newTerms sampleParse)
        (Enable (newTerms sampleParse) sampleState "B" "off").1 "B" "return(1)").1 "B"
        = ("return(1)", none) :=
  ⟨by decide, by rfl, by rfl,
    enable_replaces sampleParse sampleState "B" "off" "return(1)" 1 () ()
      (by decide) (by rfl) (by rfl)⟩

theorem enable_heap_ne {α : Type} (newTerms : String → String → Except String (Terms α))
    (s : State α) (name term : String) (fp p : Nat)
    (hreg : s.failpoints.index name = some fp) (hne : p ≠ fp) :
    (enable newTerms s name term).1.heap p = s.heap p := by
  unfold enable
  cases hnt : newTerms name term with
  | error err => simp [hreg]
  | ok t => simp [hreg, Function.update_noteq hne]

theorem disable_heap_ne {α : Type} (s : State α) (name : String) (fp p : Nat)
    (hreg : s.failpoints.index name = some fp) (hne : p ≠ fp) :
    (disable s name).1.heap p = s.heap p := by
  unfold disable
  cases ht : (s.heap fp).t with
  | none => simp [hreg, ht]
  | some t => simp [hreg, ht, Function.update_noteq hne]

theorem register_index_self {α : Type} (newTerms : String → String → Except String (Terms α))
    (s : State α) (name : String) (fp : Option Nat) :
    (register newTerms s name fp).failpoints.index name = fp := by
  rw [register_failpoints, index_insert_self]

theorem register_heap_ne {α : Type} (newTerms : String → String → Except String (Terms α))
    (s : State α) (name : String) (fp p : Nat) (hne : p ≠ fp) :
    (register newTerms s name (some fp)).heap p = s.heap p := by
  unfold register
  cases hpend : s.envTerms.lookup name with
  | none => simp [hpend]
  | some t =>
    simp only [hpend, Enable]
    rw [enable_heap_ne newTerms _ name t fp p (index_insert_self _ _ _) hne]

theorem status_of_index {α : Type} (s : State α) (name : String) (fp : Nat)
    (hreg : s.failpoints.index name = some fp) :
    status s name = match (s.heap fp).t with
      | none => ("", some Error.ErrDisabled)
      | some t => (t.desc, none) := by
  simp [status, hreg]

/-- C13 (register overwrites): when a name registered with one failpoint
object is registered again with a second, the name's entry is the second
object where before `Status` answered from the first.  `Status` on the name
answers from the second object's terms.  `Enable` on the name with an
accepted term stores the new terms in the second object, returns no error and
changes nothing else; with a rejected term it returns the error and leaves
every object.  `Disable` on the name clears the second object's terms and
returns no error when that object has terms, and returns `ErrDisabled` with
the state unchanged when it has none.  `register` itself writes to no object
but the second, so the first object keeps its terms; without a bootstrap
entry `Status` answers from what the second object carried.  The name is
listed exactly once, and every other name keeps its entry. -/
theorem register_overwrites {α : Type}
    (newTerms : String → String → Except String (Terms α)) (s : State α)
    (name : String) (fp1 fp2 : Nat) (hreg : s.failpoints.index name = some fp1) :
    Status s name
        = (match (s.heap fp1).t with
          | none => ("", some Error.ErrDisabled)
          | some t => (t.desc, none)) ∧
      (register newTerms s name (some fp2)).failpoints.index name = some fp2 ∧
      Status (register newTerms s name (some fp2)) name
        = (match ((register newTerms s name (some fp2)).heap fp2).t with
          | none => ("", some Error.ErrDisabled)
          | some t => (t.desc, none)) ∧
      (∀ term t, newTerms name term = Except.ok t →
        Enable newTerms (register newTerms s name (some fp2)) name term
          = ({ register newTerms s name (some fp2) with
                heap := Function.update (register newTerms s name (some fp2)).heap fp2
                  { t := some t } }, none)) ∧
      (∀ term err, newTerms name term = Except.error err →
        (Enable newTerms (register newTerms s name (some fp2)) name term).2
            = some (Error.badTerm err) ∧
          (Enable newTerms (register newTerms s name (some fp2)) name term).1.heap
            = (register newTerms s name (some fp2)).heap) ∧
      (∀ t, ((register newTerms s name (some fp2)).heap fp2).t = some t →
        Disable (register newTerms s name (some fp2)) name
          = ({ register newTerms s name (some fp2) with
                heap := Function.update (register newTerms s name (some fp2)).heap fp2
                  { t := none } }, none)) ∧
      (((register newTerms s name (some fp2)).heap fp2).t = none →
        Disable (register newTerms s name (some fp2)) name
          = (register newTerms s name (some fp2), some Error.ErrDisabled)) ∧
      (∀ term p, p ≠ fp2 →
        (Enable newTerms (register newTerms s name (some fp2)) name term).1.heap p
          = (register newTerms s name (some fp2)).heap p) ∧
      (∀ p, p ≠ fp2 →
        (Disable (register newTerms s name (some fp2)) name).1.heap p
          = (register newTerms s name (some fp2)).heap p) ∧
      (∀ p, p ≠ fp2 → (register newTerms s name (some fp2)).heap p = s.heap p) ∧
      (fp1 ≠ fp2 → (register newTerms s name (some fp2)).heap fp1 = s.heap fp1) ∧
      (s.envTerms.lookup name = none →
        Status (register newTerms s name (some fp2)) name
          = (match (s.heap fp2).t with
            | none => ("", some Error.ErrDisabled)
            | some t => (t.desc, none))) ∧
      (ListNames (register newTerms s name (some fp2))).count name = 1 ∧
      (∀ m, m ≠ name →
        (register newTerms s name (some fp2)).failpoints.lookup m = s.failpoints.lookup m) := by
  have hidx := register_index_self newTerms s name (some fp2)
  refine ⟨status_of_index s name fp1 hreg, hidx, status_of_index _ name fp2 hidx,
    ?_, ?_, ?_, ?_, ?_, ?_, ?_, ?_, ?_, ?_, ?_⟩
  · intro term t hacc
    simp [Enable, enable, hidx, hacc]
  · intro term err hrej
    simp [Enable, enable, hidx, hrej]
  · intro t ht
    simp [Disable, disable, hidx, ht]
  · intro ht
    simp [Disable, disable, hidx, ht]
  · intro term p hne
    exact enable_heap_ne newTerms _ name term fp2 p hidx hne
  · intro p hne
    exact disable_heap_ne _ name fp2 p hidx hne
  · intro p hne
    exact register_heap_ne newTerms s name fp2 p hne
  · intro hne
    exact register_heap_ne newTerms s name fp2 fp1 hne
  · intro hnone
    simp [register, hnone, Status, status, index_insert_self]
  · rw [ListNames, list_eq_keys, register_failpoints]
    apply List.count_eq_one_of_mem (AList.keys_nodup _)
    rw [← AList.mem_keys, AList.mem_insert]
    exact Or.inl rfl
  · intro m hne
    rw [register_failpoints, AList.lookup_insert_ne hne]

/-- Instance of C13: `B` of the sample state, active with `off` at address 1,
registered again with the disabled object at address 3; `Enable` then stores
in the object at 3, `Disable` clears it, and the object at 1 keeps `off`. -/
theorem register_overwrites_witness :
    sampleState.failpoints.index "B" = some 1 ∧
      (register (newTerms sampleParse) sampleState "B" (some 3)).failpoints.index "B"
        = some 3 ∧
      Status sampleState "B" = ("off", none) ∧
      Status (register (newTerms sampleParse) sampleState "B" (some 3)) "B"
        = ("", some Error.ErrDisabled) ∧
      (ListNames (register (newTerms sampleParse) sampleState "B" (some 3))).count "B" = 1 ∧
      newTerms sampleParse "B" "return(1)" = Except.ok { chain := (), desc := "return(1)" } ∧
      Enable (newTerms sampleParse) (register (newTerms sampleParse) sampleState "B" (some 3))
          "B" "return(1)"
        = ({ register (newTerms sampleParse) sampleState "B" (some 3) with
              heap := Function.update
                (register (newTerms sampleParse) sampleState "B" (some 3)).heap 3
                { t := some { chain := (), desc := "return(1)" } } }, none) ∧
      Status (Enable (newTerms sampleParse)
          (register (newTerms sampleParse) sampleState "B" (some 3)) "B" "return(1)").1 "B"
        = ("return(1)", none) ∧
      Status (Disable (Enable (newTerms sampleParse)
          (register (newTerms sampleParse) sampleState "B" (some 3)) "B" "return(1)").1 "B").1
          "B"
        = ("", some Error.ErrDisabled) ∧
      ((Disable (Enable (newTerms sampleParse)
          (register (newTerms sampleParse) sampleState "B" (some 3)) "B" "return(1)").1
          "B").1.heap 1).t = some { chain := (), desc := "off" } :=
  ⟨by decide,
    (register_overwrites (newTerms sampleParse) sampleState "B" 1 3 (by decide)).2.1,
    by decide, by decide,
    (register_overwrites (newTerms sampleParse) sampleState "B" 1 3
      (by decide)).2.2.2.2.2.2.2.2.2.2.2.2.1,
    by rfl,
    (register_overwrites (newTerms sampleParse) sampleState "B" 1 3
      (by decide)).2.2.2.1 "return(1)" { chain := (), desc := "return(1)" } (by rfl),
    by decide, by decide, by rfl⟩

/-! Frame of Enable and Disable -/

theorem status_congr {α : Type} (s s2 : State α) (m : String)
    (hfp : s2.failpoints = s.failpoints)
    (hheap : ∀ p, s.failpoints.index m = some p → s2.heap p = s.heap p) :
    status s2 m = status s m := by
  unfold status
  rw [hfp]
  cases hidx : s.failpoints.index m with
  | none => rfl
  | some p => simp [hheap p hidx]

theorem sampleState_index (a : String) :
    sampleState.failpoints.index a
      = if a = "A" then some 0 else if a = "B" then some 1 else none := by
  by_cases hN : a = "N"
  · subst hN
    decide
  by_cases hB : a = "B"
  · subst hB
    decide
  by_cases hA : a = "A"
  · subst hA
    decide
  have h : sampleState.failpoints.lookup a = none := by
    show AList.lookup a ((((∅ : GoMap (Option Nat)).insert "A" (some 0)).insert "B"
      (some 1)).insert "N" none) = none
    rw [AList.lookup_insert_ne hN, AList.lookup_insert_ne hB, AList.lookup_insert_ne hA,
      AList.lookup_empty]
  simp [GoMap.index, h, hA, hB]

theorem sampleState_distinct (a b : String) (p : Nat)
    (ha : sampleState.failpoints.index a = some p)
    (hb : sampleState.failpoints.index b = some p) : a = b := by
  rw [sampleState_index] at ha hb
  split_ifs at ha hb <;> simp_all <;> omega

/-- C15 (frame of Enable and Disable): in a state where no two names hold the
same failpoint object, `Enable` and `Disable` on one name, with or without
error, leave the result of `Status` for every other name as it was. -/
theorem enable_disable_frame {α : Type}
    (newTerms : String → String → Except String (Terms α)) (s : State α)
    (n m term : String)
    (hdist : ∀ a b p, s.failpoints.index a = some p → s.failpoints.index b = some p → a = b)
    (hne : m ≠ n) :
    Status (Enable newTerms s n term).1 m = Status s m ∧
      Status (Disable s n).1 m = Status s m := by
  constructor
  · apply status_congr _ _ m (enable_failpoints newTerms s n term)
    intro p hm
    cases hn : s.failpoints.index n with
    | none => simp [enable, hn]
    | some fp =>
      have hp : p ≠ fp := fun h => hne (hdist m n p hm (h ▸ hn))
      exact enable_heap_ne newTerms s n term fp p hn hp
  · apply status_congr _ _ m (disable_failpoints s n)
    intro p hm
    cases hn : s.failpoints.index n with
    | none => simp [disable, hn]
    | some fp =>
      have hp : p ≠ fp := fun h => hne (hdist m n p hm (h ▸ hn))
      exact disable_heap_ne s n fp p hn hp

/-- Instance of C15: in the sample state, whose names hold distinct objects,
enabling or disabling `A` leaves the status of `B`. -/
theorem enable_disable_frame_witness :
    (∀ a b p, sampleState.failpoints.index a = some p →
        sampleState.failpoints.index b = some p → a = b) ∧
      "B" ≠ "A" ∧
      Status (Enable (newTerms sampleParse) sampleState "A" "return(1)").1 "B"
        = Status sampleState "B" ∧
      Status (Disable sampleState "A").1 "B" = Status sampleState "B" :=
  ⟨sampleState_distinct, by decide,
    enable_disable_frame (newTerms sampleParse) sampleState "A" "B" "return(1)"
      sampleState_distinct (by decide)⟩

/-! List and the NotFound error -/

theorem init_failpoints {α : Type} (heap : Nat → Failpoint α) (getenv : String → String)
    (serve : String → Option Error) (s0 : State α)
    (hinit : init heap getenv serve = Outcome.running s0) : s0.failpoints = ∅ := by
  unfold init at hinit
  simp only at hinit
  split at hinit
  · cases hinit
  · rename_i s1 hs1
    have h1 : s1.failpoints = ∅ := by
      split at hs1
      · split at hs1
        · cases hs1
        · cases hs1
          rfl
      · cases hs1
        rfl
    split at hinit
    · split at hinit
      · cases hinit
      · cases hinit
        exact h1
    · cases hinit
      exact h1

theorem apply_no_nil {α : Type} (newTerms : String → String → Except String (Terms α))
    (s : State α) (c : Call) (hc : c.registersNil = false)
    (hs : ∀ name, s.failpoints.lookup name ≠ some none) :
    ∀ name, (c.apply newTerms s).failpoints.lookup name ≠ some none := by
  cases c with
  | register failpath fp =>
    intro name
    simp only [Call.apply, register_failpoints]
    by_cases h : name = failpath
    · subst h
      rw [AList.lookup_insert]
      cases fp with
      | none => simp [Call.registersNil] at hc
      | some p => simp
    · rw [AList.lookup_insert_ne h]
      exact hs name
  | enable failpath inTerms => simpa [Call.apply, Enable, enable_failpoints] using hs
  | disable failpath => simpa [Call.apply, Disable, disable_failpoints] using hs
  | status failpath => exact hs
  | list => exact hs

theorem runCalls_no_nil {α : Type} (newTerms : String → String → Except String (Terms α))
    (calls : List Call) (s : State α) (hc : ∀ c ∈ calls, c.registersNil = false)
    (hs : ∀ name, s.failpoints.lookup name ≠ some none) :
    ∀ name, (runCalls newTerms s calls).failpoints.lookup name ≠ some none := by
  induction calls generalizing s with
  | nil => exact hs
  | cons c cs ih =>
    simp only [runCalls, List.foldl_cons]
    exact ih _ (fun d hd => hc d (List.mem_cons_of_mem _ hd))
      (apply_no_nil newTerms s c (hc c (List.mem_cons_self _ _)) hs)

theorem index_eq_none_iff {α : Type} (s : State α)
    (hs : ∀ name, s.failpoints.lookup name ≠ some none) (name : String) :
    s.failpoints.index name = none ↔ name ∉ s.failpoints := by
  rw [← AList.lookup_eq_none]
  unfold GoMap.index
  cases h : s.failpoints.lookup name with
  | none => simp
  | some v =>
    cases v with
    | none => exact absurd h (hs name)
    | some p => simp

theorem status_not_found_iff {α : Type} (s : State α) (name : String) :
    (status s name).2 = some Error.ErrNoExist ↔ s.failpoints.index name = none := by
  unfold status
  cases hidx : s.failpoints.index name with
  | none => simp
  | some fp =>
    cases ht : (s.heap fp).t with
    | none => simp [ht]
    | some t => simp [ht]

theorem disable_not_found_iff {α : Type} (s : State α) (name : String) :
    (disable s name).2 = some Error.ErrNoExist ↔ s.failpoints.index name = none := by
  unfold disable
  cases hidx : s.failpoints.index name with
  | none => simp
  | some fp =>
    cases ht : (s.heap fp).t with
    | none => simp [ht]
    | some t => simp [ht]


/-- C18 (List and NotFound agree): in a state reached from the one `init`
leaves by calls none of which registers a nil pointer, a name is in the result
of `List` exactly when `Status` does not return `ErrNoExist` for it, and
exactly when `Disable` does not; and in any state, after `register` with a
nil pointer the name is in the result of `List` while `Enable`, `Disable` and
`Status` all return `ErrNoExist` for it. -/
theorem list_agrees_with_not_found {α : Type}
    (newTerms : String → String → Except String (Terms α))
    (heap : Nat → Failpoint α) (getenv : String → String) (serve : String → Option Error)
    (s0 : State α) (calls : List Call)
    (hinit : init heap getenv serve = Outcome.running s0)
    (hcalls : ∀ c ∈ calls, c.registersNil = false) :
    (∀ name,
        (name ∈ ListNames (runCalls newTerms s0 calls) ↔
          (Status (runCalls newTerms s0 calls) name).2 ≠ some Error.ErrNoExist) ∧
        (name ∈ ListNames (runCalls newTerms s0 calls) ↔
          (Disable (runCalls newTerms s0 calls) name).2 ≠ some Error.ErrNoExist)) ∧
      (∀ (s : State α) (name term : String),
        name ∈ ListNames (register newTerms s name none) ∧
          (Enable newTerms (register newTerms s name none) name term).2
            = some Error.ErrNoExist ∧
          (Disable (register newTerms s name none) name).2 = some Error.ErrNoExist ∧
          Status (register newTerms s name none) name = ("", some Error.ErrNoExist)) := by
  constructor
  · intro name
    have h0 : ∀ k, s0.failpoints.lookup k ≠ some none := by
      intro k
      rw [init_failpoints heap getenv serve s0 hinit, AList.lookup_empty]
      simp
    have hinv := runCalls_no_nil newTerms calls s0 hcalls h0
    have hidx := index_eq_none_iff (runCalls newTerms s0 calls) hinv name
    have hmem : name ∈ ListNames (runCalls newTerms s0 calls) ↔
        name ∈ (runCalls newTerms s0 calls).failpoints := by
      rw [ListNames, list_eq_keys, AList.mem_keys]
    constructor
    · rw [hmem, Status, Ne, status_not_found_iff, hidx, not_not]
    · rw [hmem, Disable, Ne, disable_not_found_iff, hidx, not_not]
  · intro s name term
    have hidx := register_index_self newTerms s name none
    refine ⟨?_, ?_, ?_, ?_⟩
    · rw [ListNames, list_eq_keys, ← AList.mem_keys, register_failpoints, AList.mem_insert]
      exact Or.inl rfl
    · simp [Enable, enable, hidx]
    · simp [Disable, disable, hidx]
    · simp [Status, status, hidx]

/-- Instance of C18: from the state `init` leaves for the sample environment,
`C` and `A` are registered with objects and `A` is enabled and disabled; then
`A` is listed and `Z` is not. -/
theorem list_agrees_with_not_found_witness :
    init sampleHeap sampleEnv (fun _ => none) = Outcome.running bootState ∧
      (∀ c ∈ [Call.register "C" (some 0), Call.register "A" (some 1),
          Call.enable "A" "off", Call.disable "A"], c.registersNil = false) ∧
      ("A" ∈ ListNames (runCalls (newTerms sampleParse) bootState
          [Call.register "C" (some 0), Call.register "A" (some 1),
            Call.enable "A" "off", Call.disable "A"]) ↔
        (Status (runCalls (newTerms sampleParse) bootState
          [Call.register "C" (some 0), Call.register "A" (some 1),
            Call.enable "A" "off", Call.disable "A"]) "A").2 ≠ some Error.ErrNoExist) ∧
      ListNames (runCalls (newTerms sampleParse) bootState
          [Call.register "C" (some 0), Call.register "A" (some 1),
            Call.enable "A" "off", Call.disable "A"]) = ["A", "C"] ∧
      Status (runCalls (newTerms sampleParse) bootState
          [Call.register "C" (some 0), Call.register "A" (some 1),
            Call.enable "A" "off", Call.disable "A"]) "Z" = ("", some Error.ErrNoExist) ∧
      ListNames (register (newTerms sampleParse) bootState "Z" none) = ["Z"] ∧
      Status (register (newTerms sampleParse) bootState "Z" none) "Z"
        = ("", some Error.ErrNoExist) :=
  ⟨by rfl, by decide,
    ((list_agrees_with_not_found (newTerms sampleParse) sampleHeap sampleEnv (fun _ => none)
      bootState [Call.register "C" (some 0), Call.register "A" (some 1),
        Call.enable "A" "off", Call.disable "A"] (by rfl) (by decide)).1 "A").1,
    by decide, by decide, by decide, by decide⟩


/-! Empty entries and the shape of parsed entries -/

theorem not_mem_of_mem_splitOn (sep : Char) (l e : List Char) (he : e ∈ l.splitOn sep) :
    sep ∉ e := by
  induction l generalizing e with
  | nil =>
    have h : e = [] := by simpa using he
    simp [h]
  | cons c cs ih =>
    simp only [List.splitOn] at ih he
    rw [List.splitOnP_cons] at he
    by_cases h : c = sep
    · have h2 : (c == sep) = true := by simpa using h
      rw [if_pos h2] at he
      rcases List.mem_cons.1 he with rfl | he
      · simp
      · exact ih e he
    · have h2 : ¬ ((c == sep) = true) := by simpa using h
      rw [if_neg h2] at he
      rcases hsp : List.splitOnP (fun x => x == sep) cs with _ | ⟨hd, tl⟩
      · exact absurd hsp (List.splitOnP_ne_nil _ _)
      · rw [hsp] at he ih
        simp only [List.modifyHead_cons, List.mem_cons] at he
        rcases he with rfl | he
        · have hhd := ih hd (List.mem_cons_self _ _)
          simp only [List.mem_cons, not_or]
          exact ⟨fun hc => h hc.symm, hhd⟩
        · exact ih e (List.mem_cons_of_mem _ he)

theorem not_mem_of_mem_Split (sep : Char) (s e : String) (he : e ∈ Split s sep) :
    sep ∉ e.toList := by
  obtain ⟨l, hl, rfl⟩ := List.mem_map.1 he
  exact not_mem_of_mem_splitOn sep s.toList l hl

theorem parseFailpointsLoop_filter (fpMap : GoMap String) (l : List String) :
    parseFailpointsLoop fpMap (l.filter (fun e => e ≠ "")) = parseFailpointsLoop fpMap l := by
  induction l generalizing fpMap with
  | nil => rfl
  | cons fp rest ih =>
    by_cases hfp : fp = ""
    · subst hfp
      have hlen : "".length = 0 := rfl
      rw [List.filter_cons]
      simp only [ne_eq, not_true_eq_false, decide_False, Bool.false_eq_true, if_false]
      rw [ih]
      conv_rhs => unfold parseFailpointsLoop
      rw [if_pos hlen]
    · have hlen : fp.length ≠ 0 := by
        intro h0
        have hdata : fp.data.length = 0 := h0
        exact hfp (String.ext (List.length_eq_zero.1 hdata))
      rw [List.filter_cons]
      simp only [ne_eq, hfp, not_false_eq_true, decide_True, if_true]
      unfold parseFailpointsLoop
      rw [if_neg hlen, if_neg hlen]
      rcases hsp : Split fp '=' with _ | ⟨a, _ | ⟨b, _ | ⟨c, r⟩⟩⟩
      · rfl
      · rfl
      · exact ih _
      · rfl

theorem splitOn_replicate (sep : Char) (n : Nat) :
    (List.replicate n sep).splitOn sep = List.replicate (n + 1) [] := by
  induction n with
  | zero => rfl
  | succ k ih =>
    simp only [List.splitOn] at ih ⊢
    rw [List.replicate_succ, List.splitOnP_cons, ih]
    simp [List.replicate_succ]

theorem parseFailpointsLoop_replicate_empty (fpMap : GoMap String) (n : Nat) :
    parseFailpointsLoop fpMap (List.replicate n "") = (some fpMap, none) := by
  induction n with
  | zero => rfl
  | succ k ih =>
    have hlen : "".length = 0 := rfl
    rw [List.replicate_succ]
    unfold parseFailpointsLoop
    rw [if_pos hlen, ih]

/-- C16 (empty entries are ignored): for every input, `parseFailpoints`
returns what it returns on the input's non-empty `;`-separated entries
joined with `;`; and on a string of any number of `;` characters, the empty
string included, it returns the empty map and no error. -/
theorem parseFailpoints_ignores_empty (fps : String) :
    parseFailpoints fps
        = parseFailpoints (String.intercalate ";" ((Split fps ';').filter (fun e => e ≠ ""))) ∧
      ∀ n : Nat, parseFailpoints (String.mk (List.replicate n ';')) = (some ∅, none) := by
  constructor
  · have hloop : parseFailpoints fps
        = parseFailpointsLoop ∅ ((Split fps ';').filter (fun e => e ≠ "")) := by
      rw [parseFailpointsLoop_filter]
      rfl
    by_cases hnil : (Split fps ';').filter (fun e => e ≠ "") = []
    · rw [hloop, hnil]
      rfl
    · have hsplit : Split (String.intercalate ";" ((Split fps ';').filter (fun e => e ≠ ""))) ';'
          = (Split fps ';').filter (fun e => e ≠ "") := by
        apply Split_intercalate ';' _ hnil
        intro e he
        exact not_mem_of_mem_Split ';' fps e (List.mem_of_mem_filter he)
      rw [hloop]
      conv_rhs => unfold parseFailpoints
      rw [hsplit]
  · intro n
    unfold parseFailpoints Split
    have hsp : (String.mk (List.replicate n ';')).toList.splitOn ';'
        = List.replicate (n + 1) [] := splitOn_replicate ';' n
    rw [hsp, List.map_replicate]
    exact parseFailpointsLoop_replicate_empty ∅ (n + 1)


theorem map_data_map_mk (l : List (List Char)) : (l.map String.mk).map String.data = l := by
  induction l with
  | nil => rfl
  | cons a as ih => simpa using ih

theorem Split_pair (sep : Char) (fp name term : String)
    (hsp : Split fp sep = [name, term]) :
    fp = name ++ String.singleton sep ++ term ∧ sep ∉ name.toList ∧ sep ∉ term.toList := by
  have hl : fp.toList.splitOn sep = [name.data, term.data] := by
    have h := congrArg (List.map String.data) hsp
    rw [Split, map_data_map_mk] at h
    simpa using h
  have hjoin := List.intercalate_splitOn fp.toList sep
  rw [hl] at hjoin
  refine ⟨?_, ?_, ?_⟩
  · apply String.ext
    have hs : (String.singleton sep).data = [sep] := rfl
    rw [String.data_append, String.data_append, hs]
    simpa [List.intercalate, String.toList] using hjoin.symm
  · apply not_mem_of_mem_splitOn sep fp.toList
    rw [hl]
    exact List.mem_cons_self _ _
  · apply not_mem_of_mem_splitOn sep fp.toList
    rw [hl]
    exact List.mem_cons_of_mem _ (List.mem_cons_self _ _)

theorem parseFailpointsLoop_entries_of (P : String → String → Prop) (l : List String)
    (hl : ∀ fp ∈ l, ∀ name term, Split fp '=' = [name, term] → P name term)
    (fpMap m : GoMap String) (hmap : ∀ k v, fpMap.lookup k = some v → P k v)
    (hok : parseFailpointsLoop fpMap l = (some m, none)) :
    ∀ k v, m.lookup k = some v → P k v := by
  induction l generalizing fpMap with
  | nil =>
    simp only [parseFailpointsLoop, Prod.mk.injEq, Option.some.injEq, and_true] at hok
    subst hok
    exact hmap
  | cons fp rest ih =>
    have hrest : ∀ e ∈ rest, ∀ name term, Split e '=' = [name, term] → P name term :=
      fun e he => hl e (List.mem_cons_of_mem _ he)
    unfold parseFailpointsLoop at hok
    by_cases hlen : fp.length = 0
    · rw [if_pos hlen] at hok
      exact ih hrest fpMap hmap hok
    · rw [if_neg hlen] at hok
      rcases hsp : Split fp '=' with _ | ⟨a, _ | ⟨b, _ | ⟨c, r⟩⟩⟩
      · rw [hsp] at hok
        simp at hok
      · rw [hsp] at hok
        simp at hok
      · rw [hsp] at hok
        apply ih hrest (fpMap.insert a b) _ hok
        intro k v hkv
        by_cases hk : k = a
        · subst hk
          rw [AList.lookup_insert] at hkv
          have hv : b = v := by simpa using hkv
          subst hv
          exact hl fp (List.mem_cons_self _ _) k b hsp
        · rw [AList.lookup_insert_ne hk] at hkv
          exact hmap k v hkv
      · rw [hsp] at hok
        simp at hok

/-- C17 (shape of parsed entries): whenever `parseFailpoints` returns a map
and no error, no key and no value of the map contains `;` or `=`, and for
every key with its value the text key, `=`, value is one of the
`;`-separated entries of the input; and an input with an entry `name=term`
whose term contains `=` makes `parseFailpoints` return an error. -/
theorem parseFailpoints_entry_shape (fps : String) :
    (∀ m : GoMap String, parseFailpoints fps = (some m, none) →
        ∀ k v, m.lookup k = some v →
          ';' ∉ k.toList ∧ '=' ∉ k.toList ∧ ';' ∉ v.toList ∧ '=' ∉ v.toList ∧
            (k ++ "=" ++ v) ∈ Split fps ';') ∧
      (∀ name term : String, (name ++ "=" ++ term) ∈ Split fps ';' → '=' ∈ term.toList →
        (parseFailpoints fps).2 ≠ none) := by
  constructor
  · intro m hok
    refine parseFailpointsLoop_entries_of
      (fun k v => ';' ∉ k.toList ∧ '=' ∉ k.toList ∧ ';' ∉ v.toList ∧ '=' ∉ v.toList ∧
        (k ++ "=" ++ v) ∈ Split fps ';') (Split fps ';') ?_ ∅ m ?_ hok
    · intro fp hfp name term hsp
      obtain ⟨heq, hn, ht⟩ := Split_pair '=' fp name term hsp
      have hsemi := not_mem_of_mem_Split ';' fps fp hfp
      have heq2 : fp = name ++ "=" ++ term := heq
      rw [heq2] at hsemi hfp
      simp only [String.toList, String.data_append, List.mem_append, not_or] at hsemi
      exact ⟨hsemi.1.1, hn, hsemi.2, ht, hfp⟩
    · intro k v hkv
      rw [AList.lookup_empty] at hkv
      cases hkv
  · intro name term hmem hterm
    apply (parseFailpointsLoop_error_iff ∅ (Split fps ';')).2
    refine ⟨name ++ "=" ++ term, hmem, ?_, ?_⟩
    · intro h
      have hd := congrArg String.data h
      simp at hd
    · rw [length_Split]
      have h1 : 1 ≤ term.toList.count '=' := List.count_pos_iff.2 hterm
      have h2 : (name ++ "=" ++ term).toList.count '='
          = name.toList.count '=' + 1 + term.toList.count '=' := by
        simp only [String.toList, String.data_append, List.count_append]
        rfl
      omega

/-- Instance of C17: the entries of `A=return(1);B=off`, and the failing
input `A=x=y`. -/
theorem parseFailpoints_entry_shape_witness :
    parseFailpoints "A=return(1);B=off"
        = (some (((∅ : GoMap String).insert "A" "return(1)").insert "B" "off"), none) ∧
      (((∅ : GoMap String).insert "A" "return(1)").insert "B" "off").lookup "A"
        = some "return(1)" ∧
      (';' ∉ "A".toList ∧ '=' ∉ "A".toList ∧ ';' ∉ "return(1)".toList ∧
        '=' ∉ "return(1)".toList ∧ ("A" ++ "=" ++ "return(1)") ∈ Split "A=return(1);B=off" ';') ∧
      ("A" ++ "=" ++ "x=y") ∈ Split "A=x=y" ';' ∧ '=' ∈ "x=y".toList ∧
      (parseFailpoints "A=x=y").2 ≠ none :=
  ⟨by rfl, by decide,
    (parseFailpoints_entry_shape "A=return(1);B=off").1 _ (by rfl) "A" "return(1)" (by decide),
    by decide, by decide,
    (parseFailpoints_entry_shape "A=x=y").2 "A" "x=y" (by decide) (by decide)⟩


/-! Concurrent callers -/

end Gofail
